import Mathlib

/-!
Verification of the BOLT assistant (Python sources under src/) against its
natural-language specification.  Strings are modelled as `List Char`; the
Python functions of tools.py, identity.py, memory.py and brain.py are
translated into executable Lean definitions below, and the spec's claims are
settled as theorems about those definitions.

Modelling conventions:
* Python `str` is `List Char` (`Str` below); string literals enter via `.data`.
* Machine-independent pieces (regex scanning, replace, strip, arithmetic) are
  translated exactly; `\s` and `str.strip()` whitespace is modelled by the six
  ASCII whitespace characters (the inputs of interest are ASCII).
* Network inference is an oracle parameter; the filesystem is an explicit
  association list; `os.path.realpath` is an opaque function parameter `rp`.
-/

namespace Bolt

/-- Python strings, modelled as lists of characters. -/
abbrev Str := List Char

/-- The six ASCII whitespace characters matched by Python's `\s` and stripped
by `str.strip()` (Unicode whitespace is outside the modelled alphabet). -/
def isSpaceChar (c : Char) : Bool :=
  c = ' ' || c = '\t' || c = '\n' || c = '\r' || c = '\x0b' || c = '\x0c'

/-- Python `str.strip()`: drop leading and trailing whitespace. -/
def stripChars (s : Str) : Str :=
  ((s.dropWhile isSpaceChar).reverse.dropWhile isSpaceChar).reverse

/-- Python `pat in s`: does `pat` occur as a contiguous substring of `s`? -/
def occursIn (pat : Str) : Str → Bool
  | [] => pat.isEmpty
  | c :: rest => pat.isPrefixOf (c :: rest) || occursIn pat rest

/-- Python `s.replace(pat, repl)` (all occurrences, left to right, the
replacement text is not rescanned).  For empty `pat` Python would insert
`repl` everywhere; the patterns used in the sources are all nonempty and the
definition leaves `s` unscanned only at genuine matches. -/
def replaceAll (pat repl : Str) (s : Str) : Str :=
  match s with
  | [] => []
  | c :: rest =>
    if pat ≠ [] ∧ pat.isPrefixOf (c :: rest) then
      repl ++ replaceAll pat repl (rest.drop (pat.length - 1))
    else
      c :: replaceAll pat repl rest
termination_by s.length
decreasing_by
  · simp only [List.length_cons, List.length_drop]
    omega
  · simp

/-- Split `s` at the first occurrence of `pat`: `some (a, b)` with
`s = a ++ pat ++ b`, or `none` when `pat` does not occur.  This is
`s.split(pat, 1)` restricted to the case where the split happens. -/
def splitOnFirst (pat : Str) : Str → Option (Str × Str)
  | [] => if pat.isPrefixOf [] then some ([], []) else none
  | c :: rest =>
    if pat.isPrefixOf (c :: rest) then some ([], (c :: rest).drop pat.length)
    else (splitOnFirst pat rest).map (fun p => (c :: p.1, p.2))

/-- Drop a literal from the front of `s`, failing when it is not a prefix. -/
def dropLit (lit : Str) (s : Str) : Option Str :=
  if lit.isPrefixOf s then some (s.drop lit.length) else none

/-! ### tools.py — parse_tool_calls

The regex is `<tool\s+name="([^"]+)">(.*?)</tool>` with `re.DOTALL`, used by
both `re.findall` and `re.sub`.  Because `\s` and `n`, and `[^"]` and `"`,
are disjoint, backtracking never helps: an attempt at a given position
deterministically reads `<tool`, one or more whitespace characters, `name="`,
the (nonempty) run of non-quote characters up to the first `"`, a `>`, and
then the shortest argument text ending at the first following `</tool>`.
`scanToolCalls` runs this attempt at every position, left to right,
collecting matches and passing non-matched characters through — exactly the
findall/sub semantics. -/

/-- Attempt the opening part `<tool\s+name="([^"]+)">` at the head of `s`.
Returns the captured name and the remainder after the `>`. -/
def matchOpen (s : Str) : Option (Str × Str) :=
  match dropLit "<tool".data s with
  | none => none
  | some s1 =>
    if s1.takeWhile isSpaceChar = [] then none
    else
      match dropLit "name=\"".data (s1.dropWhile isSpaceChar) with
      | none => none
      | some s2 =>
        let name := s2.takeWhile (fun c => c ≠ '"')
        if name = [] then none
        else
          match s2.dropWhile (fun c => c ≠ '"') with
          | '"' :: '>' :: rest => some (name, rest)
          | _ => none

/-- Structural worker of the scan: at each position attempt a full match
(opening tag, then the earliest `</tool>`); on success record `(name, args)`
and resume after the closing tag, otherwise emit the current character into
the cleaned text and advance one position.  `fuel` bounds the number of
positions visited; since every step consumes at least one character,
`scanGo s.length s` completes the scan (each recursive call keeps the
invariant that the fuel is at least the length of the remaining text). -/
def scanGo : Nat → Str → List (Str × Str) × Str
  | _, [] => ([], [])
  | 0, s => ([], s)
  | fuel + 1, c :: rest =>
    match matchOpen (c :: rest) with
    | some p =>
      match splitOnFirst "</tool>".data p.2 with
      | some q =>
        let r := scanGo fuel q.2
        ((p.1, q.1) :: r.1, r.2)
      | none =>
        let r := scanGo fuel rest
        (r.1, c :: r.2)
    | none =>
      let r := scanGo fuel rest
      (r.1, c :: r.2)

/-- One left-to-right scan of the whole text, findall/sub style. -/
def scanToolCalls (s : Str) : List (Str × Str) × Str := scanGo s.length s

/-- tools.py `parse_tool_calls`: the list of `(name, args)` matches and the
input with all matched spans removed and stripped. -/
def parse_tool_calls (text : Str) : List (Str × Str) × Str :=
  let r := scanToolCalls text
  (r.1, stripChars r.2)

/-! ### tools.py — path validation and the write tools

`os.path.realpath` depends on the live filesystem (symlinks), so it is a
function parameter `rp`; the home directory `_HOME_DIR` is a parameter
`home`; `os.sep` is `/`; `os.path.join(a, b)` for the relative components
used here is `a ++ "/" ++ b`.  The filesystem is an association list from
paths to file contents; `os.makedirs` only affects directories and is not
observable through it. -/

/-- Python `os.path.expanduser`: replace a leading `~` or `~/` by the home
directory.  A `~user` form (lookup of another account) is modelled as
returned unchanged. -/
def expanduser (home : Str) (path : Str) : Str :=
  match path with
  | '~' :: rest =>
    match rest with
    | [] => home
    | '/' :: _ => home ++ rest
    | _ => path
  | _ => path

/-- tools.py `_DENIED_PATHS`: the subtrees write tools cannot touch. -/
def denied_paths (home : Str) : List Str :=
  [home ++ "/".data ++ ".ssh".data,
   home ++ "/".data ++ ".gnupg".data,
   home ++ "/".data ++ ".config".data ++ "/".data ++ "autostart".data]

/-- tools.py `_validate_path`: resolve the path and confine it to the home
directory, refusing the denied subtrees unless `allow_read_only`. -/
def validate_path (rp : Str → Str) (home : Str) (path : Str)
    (allow_read_only : Bool) : Except Str Str :=
  let resolved := rp (expanduser home path)
  if (home ++ "/".data).isPrefixOf resolved = false ∧ resolved ≠ home then
    Except.error ("Access denied: path must be under ".data ++ home)
  else if allow_read_only = false then
    match (denied_paths home).find?
        (fun d => (d ++ "/".data).isPrefixOf resolved || resolved == d) with
    | some d => Except.error ("Access denied: cannot write to ".data ++ d)
    | none => Except.ok resolved
  else Except.ok resolved

/-- The observable filesystem: an association list path ↦ content. -/
abbrev FS := List (Str × Str)

def fsRead (fs : FS) (path : Str) : Option Str :=
  (List.find? (fun e => e.1 == path) fs).map (fun e => e.2)

def fsWrite (fs : FS) (path content : Str) : FS :=
  if List.any fs (fun e => e.1 == path) then
    List.map (fun e => if e.1 == path then (path, content) else e) fs
  else fs ++ [(path, content)]

/-- tools.py `tool_write_file`: first line of (stripped) `args` is the path,
the rest is the content.  Returns the reply string and the filesystem. -/
def tool_write_file (rp : Str → Str) (home : Str) (fs : FS) (args : Str) :
    Str × FS :=
  match splitOnFirst ['\n'] (stripChars args) with
  | none => ("Usage: first line is file path, remaining lines are content.".data, fs)
  | some lines =>
    match validate_path rp home (stripChars lines.1) false with
    | Except.error e => (e, fs)
    | Except.ok path =>
      ("Written to ".data ++ path ++ " (".data ++ (Nat.repr lines.2.length).data
        ++ " bytes)".data, fsWrite fs path lines.2)

/-- tools.py `tool_edit_file`: line 1 = path, line 2 = old string,
line 3 (the remainder) = new string; replaces the first occurrence. -/
def tool_edit_file (rp : Str → Str) (home : Str) (fs : FS) (args : Str) :
    Str × FS :=
  match splitOnFirst ['\n'] (stripChars args) with
  | none => ("Usage: line1=file path, line2=string to find, line3=replacement string".data, fs)
  | some lines =>
    match splitOnFirst ['\n'] lines.2 with
    | none => ("Usage: line1=file path, line2=string to find, line3=replacement string".data, fs)
    | some rest =>
      match validate_path rp home (stripChars lines.1) false with
      | Except.error e => (e, fs)
      | Except.ok path =>
        match fsRead fs path with
        | none => ("File not found: ".data ++ path, fs)
        | some content =>
          match splitOnFirst rest.1 content with
          | none => ("String to replace not found in file.".data, fs)
          | some parts =>
            ("Edited ".data ++ path,
             fsWrite fs path (parts.1 ++ rest.2 ++ parts.2))

/-! ### identity.py — _sanitize_for_prompt and save_fact -/

/-- identity.py `_sanitize_for_prompt`: strip braces, defuse `<tool` and
`</tool`, truncate to 2000 characters (appending `...`). -/
def sanitize_for_prompt (text : Str) : Str :=
  if text = [] then text
  else
    let t1 := replaceAll ['\x7b'] [] text
    let t2 := replaceAll ['\x7d'] [] t1
    let t3 := replaceAll "<tool".data "&lt;tool".data t2
    let t4 := replaceAll "</tool".data "&lt;/tool".data t3
    if 2000 < t4.length then t4.take 2000 ++ "...".data else t4

/-- A row of the `user_profile` table (timestamps and source omitted; the
float confidence is modelled as a rational). -/
structure ProfileFact where
  category : Str
  key : Str
  value : Str
  confidence : ℚ

/-- The profile store: rows in insertion order, unique on (category, key). -/
def find_fact (profile : List ProfileFact) (cat key : Str) : Option ProfileFact :=
  List.find? (fun f => f.category == cat && f.key == key) profile

/-- identity.py `save_fact`: insert a new fact, or overwrite the existing
row at (category, key) only when the new confidence is ≥ the stored one. -/
def save_fact (profile : List ProfileFact) (cat key value : Str)
    (confidence : ℚ) : List ProfileFact :=
  match find_fact profile cat key with
  | some existing =>
    if existing.confidence ≤ confidence then
      List.map (fun f =>
        if f.category == cat && f.key == key then
          { f with value := value, confidence := confidence }
        else f) profile
    else profile
  | none => profile ++ [{ category := cat, key := key, value := value,
                          confidence := confidence }]

/-! ### memory.py — token estimates, messages, tasks -/

def CHARS_PER_TOKEN : Nat := 4

def MAX_CONTEXT_TOKENS : Nat := 2000

/-- memory.py `estimate_tokens`: `max(1, len(text) // CHARS_PER_TOKEN)`
(Python `//` is floor division, `/` below is Nat division). -/
def estimate_tokens (text : Str) : Nat :=
  max 1 (text.length / CHARS_PER_TOKEN)

/-- A row of the `messages` table. -/
structure Message where
  id : Nat
  session_id : Str
  role : Str
  content : Str
  token_estimate : Nat

/-- The messages table with its autoincrement counter. -/
structure MsgStore where
  messages : List Message
  nextId : Nat

/-- memory.py `save_message`: insert a row with the estimated token count,
returning the new store and the row id. -/
def save_message (store : MsgStore) (session_id role content : Str) :
    MsgStore × Nat :=
  let tokens := estimate_tokens content
  let m : Message := { id := store.nextId, session_id := session_id,
                       role := role, content := content, token_estimate := tokens }
  ({ messages := store.messages ++ [m], nextId := store.nextId + 1 }, store.nextId)

/-- A row of the `tasks` table (id and timestamps omitted; `context_json`
folded into the title for this model). -/
structure TaskRow where
  title : Str
  status : Str

def isActive (t : TaskRow) : Bool := t.status == "active".data

/-- The `UPDATE tasks ... WHERE id = existing_id` step of the upsert: replace
the first active row in place. -/
def updateFirstActive (title status : Str) : List TaskRow → List TaskRow
  | [] => []
  | t :: ts =>
    if isActive t then { title := title, status := status } :: ts
    else t :: updateFirstActive title status ts

/-- memory.py `upsert_task`: if an active task exists update that row,
else insert a new row. -/
def upsert_task (tasks : List TaskRow) (title status : Str) : List TaskRow :=
  if List.any tasks isActive then updateFirstActive title status tasks
  else tasks ++ [{ title := title, status := status }]

/-- memory.py `complete_active_task`: `UPDATE tasks SET status='done' WHERE
status='active'`. -/
def complete_active_task (tasks : List TaskRow) : List TaskRow :=
  List.map (fun t => if isActive t then { t with status := "done".data } else t) tasks

/-- The task-table operations a session performs, for stating the
singleton-active invariant over arbitrary call sequences. -/
inductive TaskOp where
  | upsert (title status : Str)
  | complete

def applyTaskOp (tasks : List TaskRow) : TaskOp → List TaskRow
  | TaskOp.upsert title status => upsert_task tasks title status
  | TaskOp.complete => complete_active_task tasks

def applyTaskOps (tasks : List TaskRow) (ops : List TaskOp) : List TaskRow :=
  ops.foldl applyTaskOp tasks

def countActive (tasks : List TaskRow) : Nat :=
  (tasks.filter isActive).length

/-! ### brain.py — routing, classification, tool loop, context assembly -/

def MAX_TOOL_LOOPS : Nat := 25

/-- brain.py `_pick_model`: map a category to a model key, respecting the
current mode and cloud availability. -/
def pick_model (mode : Str) (cloudAvailable : Bool) (category : Str) : Str :=
  if mode = "companion".data ∧ category = "companion".data then "companion".data
  else if category = "cloud".data ∨ category = "code_beast".data then
    if cloudAvailable then "cloud".data
    else if category = "code_beast".data then "beast".data else "worker_heavy".data
  else if category = "companion".data then "companion".data
  else if category = "code_simple".data then "fast_code".data
  else if category = "code_complex".data then "worker_heavy".data
  else "companion".data

/-- config.py `ROUTER_PROMPT` up to the `message` placeholder. -/
def ROUTER_PROMPT_BEFORE : Str :=
  ("Classify the user message into exactly one category. Reply with ONLY the category word, nothing else.\n\nCategories:\n- companion: casual conversation, greetings, personal chat, questions about life/opinions, getting to know each other\n- code_simple: short code snippets, simple functions, basic syntax questions, quick fixes\n- code_complex: multi-file code, architecture, debugging complex issues, refactoring, algorithms\n- code_beast: very large codebases, extremely complex algorithms, performance-critical code, system design implementation\n- cloud: needs advanced reasoning, large code generation, architecture design, or the user explicitly asks for cloud/sonnet\n\nMessage: ").data

/-- config.py `ROUTER_PROMPT` after the `message` placeholder. -/
def ROUTER_PROMPT_AFTER : Str := "\n\nCategory:".data

def toLowerStr (s : Str) : Str := s.map Char.toLower

/-- The category scan order of brain.py `_classify`. -/
def CATEGORY_ORDER : List Str :=
  ["cloud".data, "code_beast".data, "code_complex".data, "code_simple".data,
   "companion".data]

/-- brain.py `_classify`: format the router prompt with the first 500
characters of the message, call the model (`oracle`), lowercase and strip
the reply, and return the first category it mentions. -/
def classify (oracle : Str → Str) (user_message : Str) : Str :=
  let prompt := ROUTER_PROMPT_BEFORE ++ user_message.take 500 ++ ROUTER_PROMPT_AFTER
  let result := toLowerStr (stripChars (oracle prompt))
  match CATEGORY_ORDER.find? (fun cat => occursIn cat result) with
  | some cat => cat
  | none => "companion".data

/-- The `for loop_num in range(MAX_TOOL_LOOPS)` body of brain.py
`_generate_with_tools`.  `oracle n` is the model reply of the n-th inference
call of the surrounding `process_message` (each chat invocation consumes one
reply); tool execution changes no inference count and is not tracked.
Returns the final response text and the number of inference calls made.
The cleaned text returned by `parse_tool_calls` is already stripped, so the
`if cleaned_text.strip():` guard is its non-emptiness. -/
def toolLoopAux (oracle : Nat → Str) (callIdx : Nat) (accumulated : Str) :
    Nat → Str × Nat
  | 0 => (accumulated, 0)
  | fuel + 1 =>
    let full_text := oracle callIdx
    let r := parse_tool_calls full_text
    if r.1 = [] then
      ((if accumulated = [] then full_text else accumulated ++ full_text), 1)
    else
      let acc2 := if r.2 = [] then accumulated else accumulated ++ r.2 ++ ['\n']
      match fuel with
      | 0 => ((if acc2 = [] then full_text else acc2 ++ full_text), 1)
      | _ + 1 =>
        let rec2 := toolLoopAux oracle (callIdx + 1) acc2 fuel
        (rec2.1, rec2.2 + 1)

/-- brain.py `_generate_with_tools`, counting inference calls (indices 1..,
index 0 being the classification call of `process_message`). -/
def generate_with_tools (oracle : Nat → Str) : Str × Nat :=
  toolLoopAux oracle 1 [] MAX_TOOL_LOOPS

/-- The number of inference calls one brain.py `process_message` issues:
one `_classify` call plus the calls of the tool loop. -/
def process_message_calls (oracle : Nat → Str) : Nat :=
  1 + (generate_with_tools oracle).2

/-- A row handed to the context assembler by `get_recent_messages`
(`token_estimate` may be NULL in the table, hence the Option; a stored 0 is
falsy in Python and also falls back to `estimate_tokens`). -/
structure CtxRow where
  role : Str
  content : Str
  token_estimate : Option Nat

/-- The cost the assembler charges for a recent row:
`row["token_estimate"] or estimate_tokens(row["content"])`. -/
def rowCost (r : CtxRow) : Nat :=
  match r.token_estimate with
  | some n => if n = 0 then estimate_tokens r.content else n
  | none => estimate_tokens r.content

/-- The `for row in reversed(recent)` selection loop of
`_build_context_with_identity`: keep taking rows (newest first) while the
accumulated cost stays within the budget, stopping at the first overflow. -/
def selectRows (budget : ℤ) (totalCost : Nat) : List CtxRow → List CtxRow
  | [] => []
  | r :: rs =>
    if budget < (totalCost + rowCost r : ℤ) then []
    else r :: selectRows budget (totalCost + rowCost r) rs

/-- The role whitelist applied to selected rows. -/
def mapRole (role : Str) : Str :=
  if role = "tool".data ∨ role = "tool_result".data then "system".data
  else if role = "user".data ∨ role = "assistant".data ∨ role = "system".data then role
  else "user".data

/-- The repeated `if cost < budget: append and deduct` block of the
assembler, for one optional system message. -/
def includeIfFits (text : Str) (budget : ℤ) : List (Str × Str × Nat) × ℤ :=
  let cost := estimate_tokens text
  if (cost : ℤ) < budget then ([("system".data, text, cost)], budget - cost)
  else ([], budget)

/-- brain.py `_build_context_with_identity`, instrumented: each returned
message is `(role, content, cost)` where `cost` is the token estimate the
assembler charged for it (the identity briefing is always first and always
included; summary and task texts are the formatted strings of the source).
The budget is an integer: it goes negative when the identity alone exceeds
`MAX_CONTEXT_TOKENS`, and nothing else is admitted then. -/
def build_context_with_identity (identityText : Str) (summary : Option Str)
    (task : Option (Str × Str)) (recent : List CtxRow) : List (Str × Str × Nat) :=
  let budget0 : ℤ := (MAX_CONTEXT_TOKENS : ℤ) - estimate_tokens identityText
  let idMsg : Str × Str × Nat :=
    ("system".data, identityText, estimate_tokens identityText)
  let step1 : List (Str × Str × Nat) × ℤ :=
    match summary with
    | some s => includeIfFits ("[Conversation summary so far]: ".data ++ s) budget0
    | none => ([], budget0)
  let step2 : List (Str × Str × Nat) × ℤ :=
    match task with
    | some t =>
      includeIfFits ("[Current task]: ".data ++ t.1 ++ " (status: ".data
        ++ t.2 ++ ")".data) step1.2
    | none => ([], step1.2)
  let selected := (selectRows step2.2 0 recent.reverse).reverse
  idMsg :: step1.1 ++ step2.1
    ++ selected.map (fun r => (mapRole r.role, r.content, rowCost r))

/-- The token cost the assembler charged for one returned message. -/
def msgCost (m : Str × Str × Nat) : Nat := m.2.2

/-- An inference oracle whose every reply is a single tool call: it drives
the tool loop to its full length. -/
def alwaysToolOracle : Nat → Str := fun _ => "<tool name=\"shell\">ls</tool>".data

/-- The path-prefix reading of the confinement condition: `p` lies in the
subtree rooted at `root` (it is the root itself or extends it past a `/`). -/
def underPath (root p : Str) : Bool :=
  (root ++ "/".data).isPrefixOf p || p == root

/-- The denial condition of the path-confinement claim: the resolved path is
not under the home subtree, or lies in a denied subtree. -/
def badResolved (home resolved : Str) : Prop :=
  underPath home resolved = false ∨
    ∃ d ∈ denied_paths home, underPath d resolved = true

/-! ## Theorems -/

theorem isPrefixOf_exists_append :
    ∀ (pat s : Str), pat.isPrefixOf s = true → ∃ t, pat ++ t = s
  | [], s, _ => ⟨s, rfl⟩
  | p :: ps, [], h => by simp [List.isPrefixOf] at h
  | p :: ps, c :: rest, h => by
    simp only [List.isPrefixOf, Bool.and_eq_true, beq_iff_eq] at h
    obtain ⟨t, ht⟩ := isPrefixOf_exists_append ps rest h.2
    exact ⟨t, by simp [h.1, ht]⟩

theorem isPrefixOf_of_append (pat t : Str) : pat.isPrefixOf (pat ++ t) = true := by
  induction pat with
  | nil => simp [List.isPrefixOf]
  | cons p ps ih => simp [List.isPrefixOf, ih]

theorem splitOnFirst_eq (pat : Str) :
    ∀ s a b, splitOnFirst pat s = some (a, b) → s = a ++ pat ++ b := by
  intro s
  induction s with
  | nil =>
    intro a b h
    simp only [splitOnFirst] at h
    split at h
    · rename_i hp
      cases h
      obtain ⟨t, ht⟩ := isPrefixOf_exists_append pat [] hp
      have hpat : pat = [] := by
        cases pat with
        | nil => rfl
        | cons x xs => simp at ht
      simp [hpat]
    · exact absurd h (by simp)
  | cons c rest ih =>
    intro a b h
    simp only [splitOnFirst] at h
    split at h
    · rename_i hp
      cases h
      obtain ⟨t, ht⟩ := isPrefixOf_exists_append pat (c :: rest) hp
      have hd : (c :: rest).drop pat.length = t := by
        rw [← ht, List.drop_left]
      rw [hd, List.nil_append, ht]
    · rename_i hp
      cases hsp : splitOnFirst pat rest with
      | none => rw [hsp] at h; simp at h
      | some p =>
        rw [hsp] at h
        simp only [Option.map_some'] at h
        cases h
        have := ih p.1 p.2 hsp
        simp [this]

theorem splitOnFirst_length (pat : Str) (s a b : Str)
    (h : splitOnFirst pat s = some (a, b)) :
    b.length + pat.length + a.length = s.length := by
  have := splitOnFirst_eq pat s a b h
  subst this
  simp
  omega

theorem dropLit_length (lit s r : Str) (h : dropLit lit s = some r) :
    r.length + lit.length = s.length := by
  unfold dropLit at h
  split at h
  · rename_i hp
    cases h
    obtain ⟨t, ht⟩ := isPrefixOf_exists_append lit s hp
    subst ht
    simp [List.drop_left]
    omega
  · exact absurd h (by simp)

theorem dropWhile_length_le (p : Char → Bool) :
    ∀ l : Str, (l.dropWhile p).length ≤ l.length := by
  intro l
  induction l with
  | nil => simp
  | cons c rest ih =>
    by_cases hc : p c
    · simp only [List.dropWhile, hc]
      simp only [List.length_cons]
      omega
    · simp [List.dropWhile, hc]

theorem matchOpen_length (s : Str) (p : Str × Str) (h : matchOpen s = some p) :
    p.2.length < s.length := by
  unfold matchOpen at h
  cases h1 : dropLit "<tool".data s with
  | none => rw [h1] at h; exact absurd h (by simp)
  | some s1 =>
    rw [h1] at h
    have hl1 := dropLit_length _ _ _ h1
    simp only at h
    split at h
    · exact absurd h (by simp)
    · cases h2 : dropLit "name=\"".data (s1.dropWhile isSpaceChar) with
      | none => rw [h2] at h; exact absurd h (by simp)
      | some s2 =>
        rw [h2] at h
        have hl2 := dropLit_length _ _ _ h2
        have hdw : (s1.dropWhile isSpaceChar).length ≤ s1.length :=
          dropWhile_length_le _ _
        simp only at h
        split at h
        · exact absurd h (by simp)
        · split at h
          · rename_i rest hrest
            cases h
            have hdw2 : (s2.dropWhile (fun c => c ≠ '"')).length ≤ s2.length :=
              dropWhile_length_le _ _
            rw [hrest] at hdw2
            simp only [List.length_cons] at hdw2
            simp only [List.length_cons, String.data] at hl1 hl2
            simp only
            omega
          · exact absurd h (by simp)

theorem isPrefixOf_append_of (a b c : Str) (h : a.isPrefixOf b = true) :
    a.isPrefixOf (b ++ c) = true := by
  obtain ⟨t, ht⟩ := isPrefixOf_exists_append a b h
  subst ht
  rw [List.append_assoc]
  exact isPrefixOf_of_append a (t ++ c)

/-! ### C3 — model routing under cloud availability -/

/-- C3 (corrected): for every mode, when the cloud is available the
categories `cloud` and `code_beast` both route to the `cloud` model key;
when the cloud is unavailable `code_beast` falls back to `beast` and `cloud`
falls back to `worker_heavy` (the spec swaps the two fallbacks). -/
theorem C3_pick_model_routing (mode : Str) :
    pick_model mode true "cloud".data = "cloud".data ∧
    pick_model mode true "code_beast".data = "cloud".data ∧
    pick_model mode false "code_beast".data = "beast".data ∧
    pick_model mode false "cloud".data = "worker_heavy".data := by
  have h1 : ¬ (mode = "companion".data ∧ ("cloud".data : Str) = "companion".data) :=
    fun h => absurd h.2 (by decide)
  have h2 : ¬ (mode = "companion".data ∧ ("code_beast".data : Str) = "companion".data) :=
    fun h => absurd h.2 (by decide)
  refine ⟨?_, ?_, ?_, ?_⟩
  · unfold pick_model; rw [if_neg h1]; decide
  · unfold pick_model; rw [if_neg h2]; decide
  · unfold pick_model; rw [if_neg h2]; decide
  · unfold pick_model; rw [if_neg h1]; decide

/-- C3 counterexample: with the cloud unavailable, category `cloud` maps to
`worker_heavy`, not to `beast` as the claim states. -/
theorem C3_cex_offline_cloud_not_beast :
    pick_model "companion".data false "cloud".data = "worker_heavy".data ∧
    pick_model "companion".data false "cloud".data ≠ "beast".data := by
  decide

/-! ### C5 — stored token estimate of a saved message -/

/-- C5 (corrected): every message of the store after `save_message` is
either an old message or the new row, whose `token_estimate` is
`max 1 (len(content) // 4)` — floor division, not the ceiling the spec
states. -/
theorem C5_save_message_token_estimate (store : MsgStore)
    (session_id role content : Str) :
    ∀ m ∈ (save_message store session_id role content).1.messages,
      m ∈ store.messages ∨ m.token_estimate = max 1 (content.length / 4) := by
  intro m hm
  simp only [save_message, List.mem_append, List.mem_singleton] at hm
  rcases hm with h | h
  · exact Or.inl h
  · right
    subst h
    rfl

/-- C5 counterexample: saving a 5-character message stores estimate
`max(1, 5 // 4) = 1`, while the claimed `max(1, ⌈5/4⌉)` is 2. -/
theorem C5_cex_five_chars :
    (List.map (fun m => m.token_estimate)
      (save_message { messages := [], nextId := 1 } "s".data "user".data
        "aaaaa".data).1.messages) = [1] ∧
    (1 : Nat) ≠ max 1 ((("aaaaa".data : Str).length + 3) / 4) := by
  decide

/-- C5 witness: the theorem applied to the empty store and the concrete
saved row (8 characters, stored estimate 2). -/
theorem C5_witness :
    (⟨1, "s".data, "user".data, "abcdefgh".data, 2⟩ : Message) ∈
        ({ messages := [], nextId := 1 } : MsgStore).messages ∨
      Message.token_estimate ⟨1, "s".data, "user".data, "abcdefgh".data, 2⟩ =
        max 1 (("abcdefgh".data : Str).length / 4) :=
  C5_save_message_token_estimate { messages := [], nextId := 1 } "s".data
    "user".data "abcdefgh".data ⟨1, "s".data, "user".data, "abcdefgh".data, 2⟩
    (by exact List.mem_append.mpr (Or.inr (List.mem_singleton.mpr rfl)))

/-! ### C10 — classification depends only on the first 500 characters -/

/-- C10 (confirmed): `_classify` truncates the user message to 500
characters before formatting the router prompt, so with a fixed oracle two
messages agreeing on their first 500 characters classify identically. -/
theorem C10_classify_bounded_window (oracle : Str → Str) (m1 m2 : Str)
    (h : m1.take 500 = m2.take 500) :
    classify oracle m1 = classify oracle m2 := by
  unfold classify
  rw [h]

/-- C10 witness: two concrete 500-agreeing messages that differ at index
500 classify identically. -/
theorem C10_witness :
    classify (fun _ => "cloud".data) (List.replicate 501 'a') =
      classify (fun _ => "cloud".data) (List.replicate 500 'a' ++ ['b']) := by
  apply C10_classify_bounded_window
  have h1 : (List.replicate 501 'a').take 500 = List.replicate 500 'a' := by
    rw [List.take_replicate]
    norm_num
  have h2 : (List.replicate 500 'a' ++ ['b']).take 500 = List.replicate 500 'a' :=
    List.take_left' (by rw [List.length_replicate])
  rw [h1, h2]

/-! ### C2 — inference calls per process_message -/

theorem toolLoopAux_calls_le (oracle : Nat → Str) :
    ∀ fuel callIdx acc, (toolLoopAux oracle callIdx acc fuel).2 ≤ fuel := by
  intro fuel
  induction fuel with
  | zero => intro callIdx acc; simp [toolLoopAux]
  | succ n ih =>
    intro callIdx acc
    simp only [toolLoopAux]
    split
    · simp
    · cases n with
      | zero => simp
      | succ m =>
        simp only
        have := ih (callIdx + 1)
          (if (parse_tool_calls (oracle callIdx)).2 = [] then acc
           else acc ++ (parse_tool_calls (oracle callIdx)).2 ++ ['\n'])
        omega

/-- C2 (corrected): one `process_message` issues at most
`MAX_TOOL_LOOPS + 1 = 26` inference calls — one classification call plus at
most `MAX_TOOL_LOOPS` generation calls of the tool loop.  The claimed bound
of `MAX_TOOL_LOOPS` alone fails because the classification call is extra. -/
theorem C2_process_message_call_bound (oracle : Nat → Str) :
    process_message_calls oracle ≤ MAX_TOOL_LOOPS + 1 := by
  unfold process_message_calls generate_with_tools
  have := toolLoopAux_calls_le oracle MAX_TOOL_LOOPS 1 []
  omega

theorem toolLoopAux_calls_alwaysTool :
    ∀ fuel callIdx acc, 1 ≤ fuel →
      (toolLoopAux alwaysToolOracle callIdx acc fuel).2 = fuel := by
  intro fuel
  induction fuel with
  | zero => intro _ _ h; omega
  | succ n ih =>
    intro callIdx acc _
    have hparse : (parse_tool_calls (alwaysToolOracle callIdx)).1 ≠ [] := by
      have h0 : (parse_tool_calls ("<tool name=\"shell\">ls</tool>".data)).1 ≠ [] := by
        decide
      exact h0
    simp only [toolLoopAux]
    rw [if_neg hparse]
    cases n with
    | zero => simp
    | succ m =>
      simp only
      rw [ih (callIdx + 1) _ (by omega)]

/-- C2 counterexample: an oracle answering every call with a tool call
drives `process_message` to `26 > MAX_TOOL_LOOPS` inference calls. -/
theorem C2_cex_26_calls :
    ¬ (process_message_calls alwaysToolOracle ≤ MAX_TOOL_LOOPS) := by
  unfold process_message_calls generate_with_tools
  rw [toolLoopAux_calls_alwaysTool MAX_TOOL_LOOPS 1 [] (by decide)]
  decide

/-! ### C6 — confidence precedence of save_fact -/

theorem find?_map_pred {α : Type} (p : α → Bool) (g : α → α)
    (hp : ∀ x, p (g x) = p x) :
    ∀ l : List α, (l.map g).find? p = (l.find? p).map g := by
  intro l
  induction l with
  | nil => simp
  | cons c cs ih =>
    simp only [List.map_cons, List.find?, hp c]
    cases hc : p c
    · simpa [hc] using ih
    · simp [hc]

theorem save_fact_found (profile : List ProfileFact) (cat key v : Str) (c : ℚ)
    (f : ProfileFact) (hf : find_fact profile cat key = some f) :
    save_fact profile cat key v c =
      if f.confidence ≤ c then
        List.map (fun x =>
          if x.category == cat && x.key == key then
            { category := x.category, key := x.key, value := v, confidence := c }
          else x) profile
      else profile := by
  unfold save_fact
  rw [hf]

/-- C6 (confirmed): for an existing fact at (category, key), `save_fact`
with strictly lower confidence leaves the profile unchanged, while a call
with higher or equal confidence replaces the stored value and confidence;
the spec scenario Alex(0.9) / Ally(0.4) / Alex2(0.9) behaves as stated. -/
theorem C6_save_fact_precedence (profile : List ProfileFact) (cat key : Str)
    (f : ProfileFact) (hf : find_fact profile cat key = some f) :
    (∀ v c, c < f.confidence → save_fact profile cat key v c = profile) ∧
    (∀ v c, f.confidence ≤ c →
      (find_fact (save_fact profile cat key v c) cat key).map
        (fun x => (x.value, x.confidence)) = some (v, c)) ∧
    ((find_fact (save_fact (save_fact [] "name".data "name".data "Alex".data
          (9/10)) "name".data "name".data "Ally".data (4/10))
        "name".data "name".data).map (fun x => x.value) = some "Alex".data ∧
     (find_fact (save_fact (save_fact (save_fact [] "name".data "name".data
          "Alex".data (9/10)) "name".data "name".data "Ally".data (4/10))
          "name".data "name".data "Alex2".data (9/10))
        "name".data "name".data).map (fun x => x.value) = some "Alex2".data) := by
  refine ⟨?_, ?_, ?_⟩
  · intro v c hc
    rw [save_fact_found profile cat key v c f hf, if_neg (not_le.mpr hc)]
  · intro v c hc
    rw [save_fact_found profile cat key v c f hf, if_pos hc]
    have hf' : List.find? (fun x => x.category == cat && x.key == key) profile =
        some f := hf
    have hpred := List.find?_some hf'
    unfold find_fact at hf ⊢
    rw [find?_map_pred _ _ ?hp profile, hf]
    · simp only [Option.map_some']
      rw [if_pos hpred]
    case hp =>
      intro x
      by_cases hx : (x.category == cat && x.key == key) = true
      · rw [if_pos hx, hx]
      · rw [if_neg hx]
  · have step1 : save_fact [] "name".data "name".data "Alex".data (9/10) =
        [(⟨"name".data, "name".data, "Alex".data, 9/10⟩ : ProfileFact)] := rfl
    have hne : ¬ ((9 : ℚ)/10 ≤ 4/10) := by norm_num
    have step2 : save_fact [(⟨"name".data, "name".data, "Alex".data, (9 : ℚ)/10⟩ : ProfileFact)]
          "name".data "name".data "Ally".data (4/10) =
        [(⟨"name".data, "name".data, "Alex".data, 9/10⟩ : ProfileFact)] := by
      have hfind : find_fact [(⟨"name".data, "name".data, "Alex".data, (9 : ℚ)/10⟩ : ProfileFact)]
            "name".data "name".data =
          some (⟨"name".data, "name".data, "Alex".data, (9 : ℚ)/10⟩ : ProfileFact) := rfl
      rw [save_fact_found _ _ _ _ _ _ hfind, if_neg hne]
    have hle : ((9 : ℚ)/10 ≤ 9/10) := le_refl _
    have step3 : save_fact [(⟨"name".data, "name".data, "Alex".data, (9 : ℚ)/10⟩ : ProfileFact)]
          "name".data "name".data "Alex2".data (9/10) =
        [(⟨"name".data, "name".data, "Alex2".data, 9/10⟩ : ProfileFact)] := by
      have hfind : find_fact [(⟨"name".data, "name".data, "Alex".data, (9 : ℚ)/10⟩ : ProfileFact)]
            "name".data "name".data =
          some (⟨"name".data, "name".data, "Alex".data, (9 : ℚ)/10⟩ : ProfileFact) := rfl
      rw [save_fact_found _ _ _ _ _ _ hfind, if_pos hle]
      rfl
    rw [step1, step2, step3]
    exact ⟨rfl, rfl⟩

/-- C6 witness: the theorem applied at the one-fact profile, instantiating
the lower-confidence clause with Ally(0.4) against the stored Alex(0.9). -/
theorem C6_witness :
    save_fact [(⟨"name".data, "name".data, "Alex".data, (9 : ℚ)/10⟩ : ProfileFact)]
      "name".data "name".data "Ally".data (4/10) =
    [(⟨"name".data, "name".data, "Alex".data, (9 : ℚ)/10⟩ : ProfileFact)] :=
  (C6_save_fact_precedence
    [(⟨"name".data, "name".data, "Alex".data, (9 : ℚ)/10⟩ : ProfileFact)]
    "name".data "name".data
    ⟨"name".data, "name".data, "Alex".data, (9 : ℚ)/10⟩ rfl).1
    "Ally".data (4/10) (by norm_num)

/-! ### C8 — the singleton active task invariant -/

theorem countActive_cons (t : TaskRow) (ts : List TaskRow) :
    countActive (t :: ts) = (if isActive t then 1 else 0) + countActive ts := by
  simp only [countActive, List.filter]
  cases h : isActive t <;> simp [h] <;> omega

theorem updateFirstActive_count (title status : Str) :
    ∀ l, countActive l ≤ 1 → countActive (updateFirstActive title status l) ≤ 1 := by
  intro l
  induction l with
  | nil => intro _; simp [updateFirstActive, countActive]
  | cons t ts ih =>
    intro h
    rw [countActive_cons] at h
    by_cases ht : isActive t
    · rw [if_pos ht] at h
      have hts : countActive ts = 0 := by omega
      simp only [updateFirstActive, ht, if_true]
      rw [countActive_cons, hts]
      split <;> omega
    · rw [if_neg ht] at h
      simp only [updateFirstActive, ht]
      rw [if_neg (by simp)]
      rw [countActive_cons, if_neg ht]
      have hts : countActive ts ≤ 1 := by omega
      have := ih hts
      omega

theorem updateFirstActive_length (title status : Str) :
    ∀ l, (updateFirstActive title status l).length = l.length := by
  intro l
  induction l with
  | nil => rfl
  | cons t ts ih =>
    simp only [updateFirstActive]
    split <;> simp [ih]

theorem countActive_eq_zero_of_not_any (l : List TaskRow)
    (h : List.any l isActive = false) : countActive l = 0 := by
  induction l with
  | nil => rfl
  | cons t ts ih =>
    simp only [List.any_cons, Bool.or_eq_false_iff] at h
    rw [countActive_cons, if_neg (by simp [h.1]), ih h.2]

theorem upsert_task_count (l : List TaskRow) (title status : Str)
    (h : countActive l ≤ 1) : countActive (upsert_task l title status) ≤ 1 := by
  unfold upsert_task
  split
  · exact updateFirstActive_count title status l h
  · rename_i hany
    rw [Bool.not_eq_true] at hany
    have h0 := countActive_eq_zero_of_not_any l hany
    unfold countActive
    rw [List.filter_append, List.length_append]
    unfold countActive at h0
    rw [h0]
    simp only [List.filter, List.length_nil]
    split <;> simp

theorem complete_active_task_count (l : List TaskRow) :
    countActive (complete_active_task l) = 0 := by
  induction l with
  | nil => rfl
  | cons t ts ih =>
    simp only [complete_active_task, List.map_cons]
    rw [countActive_cons]
    simp only [complete_active_task] at ih
    rw [ih]
    by_cases h : isActive t
    · rw [if_pos h]
      have hd : isActive { t with status := "done".data } = false := rfl
      rw [hd]
      simp
    · rw [if_neg h]
      simp [h]

theorem applyTaskOp_count (l : List TaskRow) (op : TaskOp)
    (h : countActive l ≤ 1) : countActive (applyTaskOp l op) ≤ 1 := by
  cases op with
  | upsert title status => exact upsert_task_count l title status h
  | complete =>
    simp only [applyTaskOp]
    rw [complete_active_task_count]
    omega

/-- C8 (confirmed): starting from at most one active task, every sequence
of `upsert_task` / `complete_active_task` calls keeps at most one active
task; moreover `upsert_task` updates in place (same row count) when an
active task exists and appends exactly one row when none does. -/
theorem C8_singleton_active_task (tasks : List TaskRow) (ops : List TaskOp)
    (h : countActive tasks ≤ 1) :
    countActive (applyTaskOps tasks ops) ≤ 1 ∧
    (∀ title status,
      (List.any tasks isActive = true →
        (upsert_task tasks title status).length = tasks.length) ∧
      (List.any tasks isActive = false →
        (upsert_task tasks title status).length = tasks.length + 1)) := by
  constructor
  · induction ops generalizing tasks with
    | nil => exact h
    | cons op rest ih =>
      exact ih (applyTaskOp tasks op) (applyTaskOp_count tasks op h)
  · intro title status
    constructor
    · intro hany
      unfold upsert_task
      rw [if_pos hany]
      exact updateFirstActive_length title status tasks
    · intro hany
      unfold upsert_task
      rw [if_neg (by simp [hany])]
      simp

/-! ### C9 — re-parsing the cleaned text

Removing the matched spans can splice surrounding text into a brand-new
parseable tool call (the counterexample below splits both the opening tag
and nothing else), so `parse_tool_calls` is not idempotent on its cleaned
output.  What does hold: the cleaned text is strip-stable, and whenever the
cleaned text contains no match the second parse returns it unchanged. -/

theorem scanGo_noMatches : ∀ (fuel : Nat) (s : Str), s.length ≤ fuel →
    (scanGo fuel s).1 = [] → (scanGo fuel s).2 = s := by
  intro fuel
  induction fuel with
  | zero =>
    intro s hs _
    match s with
    | [] => rfl
    | c :: rest => simp at hs
  | succ n ih =>
    intro s hs h
    match s with
    | [] => rfl
    | c :: rest =>
      simp only [List.length_cons] at hs
      simp only [scanGo] at h ⊢
      cases hm : matchOpen (c :: rest) with
      | some p =>
        simp only [hm] at h ⊢
        cases hsp : splitOnFirst "</tool>".data p.2 with
        | some q =>
          simp only [hsp] at h
          exact absurd h (by simp)
        | none =>
          simp only [hsp] at h ⊢
          rw [ih rest (by omega) h]
      | none =>
        simp only [hm] at h ⊢
        rw [ih rest (by omega) h]

theorem dropWhile_head_not (p : Char → Bool) :
    ∀ (l : Str) (c : Char) (rest : Str), l.dropWhile p = c :: rest → p c = false := by
  intro l
  induction l with
  | nil => intro c rest h; simp [List.dropWhile] at h
  | cons x xs ih =>
    intro c rest h
    rw [List.dropWhile_cons] at h
    by_cases hx : p x
    · rw [if_pos hx] at h
      exact ih c rest h
    · rw [if_neg hx] at h
      cases h
      exact Bool.not_eq_true _ ▸ (by simpa using hx)

theorem dropWhile_suffix_decomp (p : Char → Bool) :
    ∀ l : Str, ∃ w, l = w ++ l.dropWhile p := by
  intro l
  induction l with
  | nil => exact ⟨[], rfl⟩
  | cons x xs ih =>
    rw [List.dropWhile_cons]
    by_cases hx : p x
    · rw [if_pos hx]
      obtain ⟨w, hw⟩ := ih
      exact ⟨x :: w, by rw [List.cons_append, ← hw]⟩
    · rw [if_neg hx]
      exact ⟨[], rfl⟩

theorem stripChars_idem (s : Str) : stripChars (stripChars s) = stripChars s := by
  cases hu : (s.dropWhile isSpaceChar).reverse.dropWhile isSpaceChar with
  | nil =>
    have h1 : stripChars s = [] := by rw [stripChars, hu]; rfl
    rw [h1]
    rfl
  | cons c u' =>
    have hsd : stripChars s = (c :: u').reverse := by rw [stripChars, hu]
    have hc : isSpaceChar c = false :=
      dropWhile_head_not _ _ c u' hu
    obtain ⟨w, hw⟩ :=
      dropWhile_suffix_decomp isSpaceChar (s.dropWhile isSpaceChar).reverse
    rw [hu] at hw
    have ht : s.dropWhile isSpaceChar = (c :: u').reverse ++ w.reverse := by
      have := congrArg List.reverse hw
      simpa [List.reverse_append] using this
    cases hrev : (c :: u').reverse with
    | nil =>
      have := congrArg List.length hrev
      simp at this
    | cons d v =>
      have hd : isSpaceChar d = false := by
        apply dropWhile_head_not isSpaceChar s d (v ++ w.reverse)
        rw [ht, hrev, List.cons_append]
      rw [hsd, hrev, stripChars]
      have h1 : (d :: v).dropWhile isSpaceChar = d :: v := by
        rw [List.dropWhile_cons, if_neg (by simp [hd])]
      rw [h1]
      have h2 : (d :: v).reverse = c :: u' := by
        rw [← hrev, List.reverse_reverse]
      rw [h2]
      have h3 : (c :: u').dropWhile isSpaceChar = c :: u' := by
        rw [List.dropWhile_cons, if_neg (by simp [hc])]
      rw [h3]
      exact hrev

/-- C9 (corrected): whenever the cleaned output of one parse contains no
further match, a second parse returns `([], cleaned)` — the cleaned text is
already stripped.  Full idempotence fails: removing matches can splice a
new tool call together. -/
theorem C9_parse_cleaned_stable (text : Str) (ms : List (Str × Str)) (cl : Str)
    (hparse : parse_tool_calls text = (ms, cl))
    (hnone : (parse_tool_calls cl).1 = []) :
    parse_tool_calls cl = ([], cl) := by
  have hcl : cl = stripChars (scanToolCalls text).2 := by
    have h := congrArg Prod.snd hparse
    simpa [parse_tool_calls] using h.symm
  have h1 : (scanToolCalls cl).1 = [] := hnone
  have h2 : (scanToolCalls cl).2 = cl :=
    scanGo_noMatches cl.length cl le_rfl h1
  show ((scanToolCalls cl).1, stripChars (scanToolCalls cl).2) = ([], cl)
  rw [h1, h2, hcl, stripChars_idem]

/-- C9 witness: re-parsing the cleaned text of a simple one-call message
returns it unchanged. -/
theorem C9_witness :
    parse_tool_calls "hello  bye".data = ([], "hello  bye".data) :=
  C9_parse_cleaned_stable "hello <tool name=\"a\">x</tool> bye".data
    [("a".data, "x".data)] "hello  bye".data (by decide) (by decide)

/-- C9 counterexample: removing the only match of this input splices the
surrounding text into a new parseable tool call, so the second parse does
not return `([], cleaned)`. -/
theorem C9_cex_spliced_call :
    parse_tool_calls (parse_tool_calls
      "<to<tool name=\"a\">junk</tool>ol name=\"x\">payload</tool>".data).2 ≠
    ([], (parse_tool_calls
      "<to<tool name=\"a\">junk</tool>ol name=\"x\">payload</tool>".data).2) := by
  decide

/-! ### C4 — the sanitizer output is inert

The replacement strings `&lt;tool` and `&lt;/tool` contain no `<`, and both
patterns start with `<`; the lemmas below turn that into: the output of
`replaceAll pat repl` contains no occurrence of `pat`, absences of other
`<`-headed patterns are preserved, and truncation with a `...` marker
cannot resurrect an occurrence. -/

theorem isPrefixOf_cons_eq (p0 : Char) (pt : Str) (c : Char) (l : Str) :
    (p0 :: pt).isPrefixOf (c :: l) = ((p0 == c) && pt.isPrefixOf l) := rfl

theorem replaceAll_nil (pat repl : Str) : replaceAll pat repl [] = [] := by
  rw [replaceAll]

theorem replaceAll_cons_pos (pat repl : Str) (c : Char) (rest : Str)
    (h : pat ≠ [] ∧ pat.isPrefixOf (c :: rest) = true) :
    replaceAll pat repl (c :: rest) =
      repl ++ replaceAll pat repl (rest.drop (pat.length - 1)) := by
  rw [replaceAll]
  rw [if_pos h]

theorem replaceAll_cons_neg (pat repl : Str) (c : Char) (rest : Str)
    (h : ¬ (pat ≠ [] ∧ pat.isPrefixOf (c :: rest) = true)) :
    replaceAll pat repl (c :: rest) = c :: replaceAll pat repl rest := by
  rw [replaceAll]
  rw [if_neg h]

theorem occursIn_cons_of (q : Str) (c : Char) (l : Str)
    (h : occursIn q l = true) : occursIn q (c :: l) = true := by
  simp [occursIn, h]

theorem occursIn_of_drop (q : Str) :
    ∀ (s : Str) (k : Nat), occursIn q (s.drop k) = true → occursIn q s = true := by
  intro s
  induction s with
  | nil => intro k h; simpa using h
  | cons c rest ih =>
    intro k h
    cases k with
    | zero => exact h
    | succ n => exact occursIn_cons_of q c rest (ih n h)

theorem occursIn_append_nohead (p0 : Char) (pt : Str) :
    ∀ (u v : Str), (∀ c ∈ u, c ≠ p0) →
      occursIn (p0 :: pt) (u ++ v) = occursIn (p0 :: pt) v := by
  intro u
  induction u with
  | nil => intro v _; rfl
  | cons c u' ih =>
    intro v hu
    have hc : c ≠ p0 := hu c (List.mem_cons_self c u')
    simp only [List.cons_append, occursIn, isPrefixOf_cons_eq]
    have hb : (p0 == c) = false := by
      simp [BEq.comm]
      exact fun he => hc he.symm
    rw [hb]
    simp only [Bool.false_and, Bool.false_or]
    exact ih v (fun x hx => hu x (List.mem_cons_of_mem c hx))

theorem prefix_of_replaceAll (pat : Str) (r0 : Char) (rtl : Str) :
    ∀ (s w : Str), r0 ∉ w →
      w.isPrefixOf (replaceAll pat (r0 :: rtl) s) = true →
      w.isPrefixOf s = true := by
  have main : ∀ (n : Nat) (s : Str), s.length ≤ n → ∀ w : Str, r0 ∉ w →
      w.isPrefixOf (replaceAll pat (r0 :: rtl) s) = true →
      w.isPrefixOf s = true := by
    intro n
    induction n with
    | zero =>
      intro s hs w _ h
      match s with
      | [] => rw [replaceAll_nil] at h; exact h
      | c :: rest => simp at hs
    | succ n ih =>
      intro s hs w hw h
      match s with
      | [] => rw [replaceAll_nil] at h; exact h
      | c :: rest =>
        simp only [List.length_cons] at hs
        by_cases hcond : (pat ≠ [] ∧ pat.isPrefixOf (c :: rest) = true)
        · rw [replaceAll_cons_pos pat _ c rest hcond] at h
          match w, h with
          | [], _ => rfl
          | w0 :: w', h =>
            rw [List.cons_append, isPrefixOf_cons_eq, Bool.and_eq_true,
              beq_iff_eq] at h
            exact absurd (h.1 ▸ List.mem_cons_self w0 w') (by simpa [h.1] using hw)
        · rw [replaceAll_cons_neg pat _ c rest hcond] at h
          match w, h with
          | [], _ => rfl
          | w0 :: w', h =>
            rw [isPrefixOf_cons_eq, Bool.and_eq_true, beq_iff_eq] at h
            have hrec := ih rest (by omega) w'
              (fun hm => hw (List.mem_cons_of_mem w0 hm)) h.2
            rw [isPrefixOf_cons_eq, Bool.and_eq_true, beq_iff_eq]
            exact ⟨h.1, hrec⟩
  intro s w hw h
  exact main s.length s le_rfl w hw h

theorem replaceAll_self_not_occurs (pt : Str) (rtl : Str)
    (hrepl : '<' ∉ ('&' :: rtl)) (hpt1 : '&' ∉ pt) :
    ∀ s : Str, occursIn ('<' :: pt) (replaceAll ('<' :: pt) ('&' :: rtl) s) = false := by
  have main : ∀ (n : Nat) (s : Str), s.length ≤ n →
      occursIn ('<' :: pt) (replaceAll ('<' :: pt) ('&' :: rtl) s) = false := by
    intro n
    induction n with
    | zero =>
      intro s hs
      match s with
      | [] => rw [replaceAll_nil]; rfl
      | c :: rest => simp at hs
    | succ n ih =>
      intro s hs
      match s with
      | [] => rw [replaceAll_nil]; rfl
      | c :: rest =>
        simp only [List.length_cons] at hs
        by_cases hcond : (('<' :: pt) ≠ [] ∧ ('<' :: pt).isPrefixOf (c :: rest) = true)
        · rw [replaceAll_cons_pos _ _ c rest hcond]
          rw [occursIn_append_nohead '<' pt ('&' :: rtl) _
            (fun x hx hxe => hrepl (hxe ▸ hx))]
          refine ih _ ?_
          have := dropWhile_length_le (fun _ => true) rest
          simp only [List.length_drop]
          omega
        · rw [replaceAll_cons_neg _ _ c rest hcond]
          simp only [occursIn, Bool.or_eq_false_iff]
          constructor
          · rw [isPrefixOf_cons_eq]
            cases hb : ('<' == c) with
            | false => rfl
            | true =>
              rw [Bool.true_and]
              cases hp : pt.isPrefixOf (replaceAll ('<' :: pt) ('&' :: rtl) rest) with
              | false => rfl
              | true =>
                exfalso
                have hw := prefix_of_replaceAll ('<' :: pt) '&' rtl rest pt hpt1 hp
                apply hcond
                refine ⟨by simp, ?_⟩
                rw [isPrefixOf_cons_eq, hb, Bool.true_and]
                exact hw
          · exact ih rest (by omega)
  intro s
  exact main s.length s le_rfl

theorem replaceAll_keeps_not_occurs (qt : Str) (pat : Str) (rtl : Str)
    (hrepl : '<' ∉ ('&' :: rtl)) (hqt : '&' ∉ qt) :
    ∀ s : Str, occursIn ('<' :: qt) s = false →
      occursIn ('<' :: qt) (replaceAll pat ('&' :: rtl) s) = false := by
  have main : ∀ (n : Nat) (s : Str), s.length ≤ n →
      occursIn ('<' :: qt) s = false →
      occursIn ('<' :: qt) (replaceAll pat ('&' :: rtl) s) = false := by
    intro n
    induction n with
    | zero =>
      intro s hlen _
      match s with
      | [] => rw [replaceAll_nil]; rfl
      | c :: rest => simp at hlen
    | succ n ih =>
      intro s hlen hs
      match s with
      | [] => rw [replaceAll_nil]; rfl
      | c :: rest =>
        simp only [List.length_cons] at hlen
        simp only [occursIn, Bool.or_eq_false_iff] at hs
        by_cases hcond : (pat ≠ [] ∧ pat.isPrefixOf (c :: rest) = true)
        · rw [replaceAll_cons_pos _ _ c rest hcond]
          rw [occursIn_append_nohead '<' qt ('&' :: rtl) _
            (fun x hx hxe => hrepl (hxe ▸ hx))]
          have hdrop : occursIn ('<' :: qt) (rest.drop (pat.length - 1)) = false := by
            cases hq : occursIn ('<' :: qt) (rest.drop (pat.length - 1)) with
            | false => rfl
            | true => exact absurd (occursIn_of_drop _ rest _ hq) (by simp [hs.2])
          refine ih _ ?_ hdrop
          simp only [List.length_drop]
          omega
        · rw [replaceAll_cons_neg _ _ c rest hcond]
          simp only [occursIn, Bool.or_eq_false_iff]
          refine ⟨?_, ih rest (by omega) hs.2⟩
          rw [isPrefixOf_cons_eq]
          cases hb : ('<' == c) with
          | false => rfl
          | true =>
            rw [Bool.true_and]
            cases hp : qt.isPrefixOf (replaceAll pat ('&' :: rtl) rest) with
            | false => rfl
            | true =>
              exfalso
              have hw := prefix_of_replaceAll pat '&' rtl rest qt hqt hp
              have : ('<' :: qt).isPrefixOf (c :: rest) = true := by
                rw [isPrefixOf_cons_eq, hb, Bool.true_and]
                exact hw
              rw [this] at hs
              exact absurd hs.1 (by simp)
  intro s hs
  exact main s.length s le_rfl hs

theorem mem_replaceAll (pat repl : Str) (a : Char) :
    ∀ s : Str, a ∈ replaceAll pat repl s → a ∈ s ∨ a ∈ repl := by
  have main : ∀ (n : Nat) (s : Str), s.length ≤ n →
      a ∈ replaceAll pat repl s → a ∈ s ∨ a ∈ repl := by
    intro n
    induction n with
    | zero =>
      intro s hlen h
      match s with
      | [] => rw [replaceAll_nil] at h; cases h
      | c :: rest => simp at hlen
    | succ n ih =>
      intro s hlen h
      match s with
      | [] => rw [replaceAll_nil] at h; cases h
      | c :: rest =>
        simp only [List.length_cons] at hlen
        by_cases hcond : (pat ≠ [] ∧ pat.isPrefixOf (c :: rest) = true)
        · rw [replaceAll_cons_pos _ _ c rest hcond] at h
          rcases List.mem_append.mp h with h | h
          · exact Or.inr h
          · rcases ih _ (by simp only [List.length_drop]; omega) h with h | h
            · exact Or.inl (List.mem_cons_of_mem c (List.mem_of_mem_drop h))
            · exact Or.inr h
        · rw [replaceAll_cons_neg _ _ c rest hcond] at h
          rcases List.mem_cons.mp h with h | h
          · exact Or.inl (h ▸ List.mem_cons_self c rest)
          · rcases ih rest (by omega) h with h | h
            · exact Or.inl (List.mem_cons_of_mem c h)
            · exact Or.inr h
  intro s h
  exact main s.length s le_rfl h

theorem replaceAll_erase_not_mem (b : Char) :
    ∀ s : Str, b ∉ replaceAll [b] [] s := by
  have main : ∀ (n : Nat) (s : Str), s.length ≤ n → b ∉ replaceAll [b] [] s := by
    intro n
    induction n with
    | zero =>
      intro s hlen
      match s with
      | [] => rw [replaceAll_nil]; simp
      | c :: rest => simp at hlen
    | succ n ih =>
      intro s hlen
      match s with
      | [] => rw [replaceAll_nil]; simp
      | c :: rest =>
        simp only [List.length_cons] at hlen
        by_cases hcond : (([b] : Str) ≠ [] ∧ ([b] : Str).isPrefixOf (c :: rest) = true)
        · rw [replaceAll_cons_pos _ _ c rest hcond]
          simpa using ih rest (by omega)
        · rw [replaceAll_cons_neg _ _ c rest hcond]
          have hc : c ≠ b := by
            intro he
            exact hcond ⟨by simp, by rw [isPrefixOf_cons_eq]; simp [he]⟩
          intro hmem
          rcases List.mem_cons.mp hmem with h | h
          · exact hc h.symm
          · exact ih rest (by omega) h
  intro s
  exact main s.length s le_rfl

theorem isPrefixOf_of_take (w : Str) :
    ∀ (l : Str) (n : Nat), w.isPrefixOf (l.take n) = true → w.isPrefixOf l = true := by
  induction w with
  | nil => intro l n _; cases l <;> rfl
  | cons w0 w' ih =>
    intro l n h
    match l, n with
    | [], _ => simpa using h
    | c :: rest, 0 => simp [List.isPrefixOf] at h
    | c :: rest, k + 1 =>
      rw [List.take_succ_cons, isPrefixOf_cons_eq, Bool.and_eq_true] at h
      rw [isPrefixOf_cons_eq, Bool.and_eq_true]
      exact ⟨h.1, ih rest k h.2⟩

theorem occursIn_of_take (q : Str) :
    ∀ (s : Str) (n : Nat), occursIn q (s.take n) = true → occursIn q s = true := by
  intro s
  induction s with
  | nil => intro n h; simpa using h
  | cons c rest ih =>
    intro n h
    cases n with
    | zero =>
      simp only [List.take_zero] at h
      cases q with
      | nil => rfl
      | cons q0 qt => simpa [occursIn] using h
    | succ k =>
      rw [List.take_succ_cons] at h
      simp only [occursIn, Bool.or_eq_true] at h ⊢
      rcases h with h | h
      · exact Or.inl (isPrefixOf_of_take q (c :: rest) (k + 1)
          (by rwa [List.take_succ_cons]))
      · exact Or.inr (ih k h)

theorem isPrefixOf_split (w : Str) :
    ∀ (a b : Str), w.isPrefixOf (a ++ b) = true →
      w.isPrefixOf a = true ∨
        (a.isPrefixOf w = true ∧ (w.drop a.length).isPrefixOf b = true) := by
  intro a
  induction a generalizing w with
  | nil =>
    intro b h
    right
    exact ⟨by cases w <;> rfl, h⟩
  | cons c a' ih =>
    intro b h
    match w with
    | [] => left; rfl
    | w0 :: w' =>
      rw [List.cons_append, isPrefixOf_cons_eq, Bool.and_eq_true] at h
      rcases ih w' b h.2 with h' | h'
      · left
        rw [isPrefixOf_cons_eq, Bool.and_eq_true]
        exact ⟨h.1, h'⟩
      · right
        constructor
        · rw [isPrefixOf_cons_eq, Bool.and_eq_true]
          exact ⟨by rw [beq_iff_eq] at h ⊢; exact (h.1).symm, h'.1⟩
        · simpa using h'.2

theorem isPrefixOf_eq_of_length (a : Str) :
    ∀ b : Str, a.isPrefixOf b = true → b.length ≤ a.length → a = b := by
  intro b h hl
  obtain ⟨t, ht⟩ := isPrefixOf_exists_append a b h
  have : t = [] := by
    have := congrArg List.length ht
    simp at this
    cases t with
    | nil => rfl
    | cons x xs => simp at this; omega
  simp [this] at ht
  exact ht

theorem occursIn_all_dots (q0 : Char) (qt : Str) (h0 : q0 ≠ '.') :
    ∀ v : Str, (∀ c ∈ v, c = '.') → occursIn (q0 :: qt) v = false := by
  intro v
  induction v with
  | nil => intro _; rfl
  | cons c v' ih =>
    intro hv
    simp only [occursIn, Bool.or_eq_false_iff]
    constructor
    · rw [isPrefixOf_cons_eq]
      have : (q0 == c) = false := by
        rw [beq_eq_false_iff_ne]
        rw [hv c (List.mem_cons_self c v')]
        exact h0
      rw [this, Bool.false_and]
    · exact ih (fun x hx => hv x (List.mem_cons_of_mem c hx))

theorem occursIn_append_dots (q0 : Char) (qt : Str) (h0 : q0 ≠ '.')
    (hq : '.' ∉ (q0 :: qt)) :
    ∀ (u v : Str), (∀ c ∈ v, c = '.') → occursIn (q0 :: qt) u = false →
      occursIn (q0 :: qt) (u ++ v) = false := by
  intro u
  induction u with
  | nil =>
    intro v hv _
    exact occursIn_all_dots q0 qt h0 v hv
  | cons c u' ih =>
    intro v hv hu
    simp only [occursIn, Bool.or_eq_false_iff] at hu
    simp only [List.cons_append, occursIn, Bool.or_eq_false_iff]
    refine ⟨?_, ih v hv hu.2⟩
    rw [isPrefixOf_cons_eq]
    cases hb : (q0 == c) with
    | false => rfl
    | true =>
      rw [Bool.true_and]
      cases hp : qt.isPrefixOf (u' ++ v) with
      | false => rfl
      | true =>
        exfalso
        rcases isPrefixOf_split qt u' v hp with h' | h'
        · have : (q0 :: qt).isPrefixOf (c :: u') = true := by
            rw [isPrefixOf_cons_eq, hb, Bool.true_and]
            exact h'
          rw [this] at hu
          exact absurd hu.1 (by simp)
        · cases hd : qt.drop u'.length with
          | nil =>
            have hlen : qt.length ≤ u'.length := by
              have := congrArg List.length hd
              simp at this
              omega
            have hequ : u' = qt := isPrefixOf_eq_of_length u' qt h'.1 hlen
            have hself : qt.isPrefixOf qt = true := by
              have := isPrefixOf_of_append qt []
              simpa using this
            have : (q0 :: qt).isPrefixOf (c :: u') = true := by
              rw [isPrefixOf_cons_eq, hb, Bool.true_and, hequ]
              exact hself
            rw [this] at hu
            exact absurd hu.1 (by simp)
          | cons d dt =>
            have hdv : d ∈ v := by
              rw [hd] at h'
              obtain ⟨t, ht⟩ := isPrefixOf_exists_append (d :: dt) v h'.2
              rw [← ht]
              exact List.mem_append.mpr (Or.inl (List.mem_cons_self d dt))
            have hdq : d ∈ qt := by
              have : d ∈ qt.drop u'.length := by rw [hd]; exact List.mem_cons_self d dt
              exact List.mem_of_mem_drop this
            have : d = '.' := hv d hdv
            exact hq (List.mem_cons_of_mem q0 (this ▸ hdq))

theorem trunc_props (t4 : Str)
    (hb : ∀ c ∈ t4, c ≠ '\x7b' ∧ c ≠ '\x7d')
    (h1 : occursIn "<tool".data t4 = false)
    (h2 : occursIn "</tool".data t4 = false) :
    (∀ c ∈ (if 2000 < t4.length then t4.take 2000 ++ "...".data else t4),
        c ≠ '\x7b' ∧ c ≠ '\x7d') ∧
    occursIn "<tool".data
      (if 2000 < t4.length then t4.take 2000 ++ "...".data else t4) = false ∧
    occursIn "</tool".data
      (if 2000 < t4.length then t4.take 2000 ++ "...".data else t4) = false ∧
    (if 2000 < t4.length then t4.take 2000 ++ "...".data else t4).length ≤ 2003 := by
  have hdots1 : ∀ x ∈ "...".data, x ≠ '\x7b' ∧ x ≠ '\x7d' := by decide
  have hdots2 : ∀ c ∈ "...".data, c = '.' := by decide
  have e1 : "<tool".data = '<' :: "tool".data := rfl
  have e2 : "</tool".data = '<' :: "/tool".data := rfl
  by_cases hlen : 2000 < t4.length
  · rw [if_pos hlen]
    refine ⟨?_, ?_, ?_, ?_⟩
    · intro c hc
      rcases List.mem_append.mp hc with hc | hc
      · exact hb c (List.take_subset 2000 t4 hc)
      · exact hdots1 c hc
    · have htake : occursIn "<tool".data (t4.take 2000) = false := by
        cases hq : occursIn "<tool".data (t4.take 2000) with
        | false => rfl
        | true => exact absurd (occursIn_of_take _ t4 2000 hq) (by simp [h1])
      rw [e1] at htake ⊢
      exact occursIn_append_dots '<' "tool".data (by decide) (by decide)
        (t4.take 2000) "...".data hdots2 htake
    · have htake : occursIn "</tool".data (t4.take 2000) = false := by
        cases hq : occursIn "</tool".data (t4.take 2000) with
        | false => rfl
        | true => exact absurd (occursIn_of_take _ t4 2000 hq) (by simp [h2])
      rw [e2] at htake ⊢
      exact occursIn_append_dots '<' "/tool".data (by decide) (by decide)
        (t4.take 2000) "...".data hdots2 htake
    · rw [List.length_append, List.length_take]
      have : ("...".data : Str).length = 3 := rfl
      rw [this]
      omega
  · rw [if_neg hlen]
    exact ⟨hb, h1, h2, by omega⟩

/-- C4 (corrected): for every input string, the sanitizer output contains
no brace, no substring `<tool` and no substring `</tool`; its length is at
most 2,003 characters — not 2,000 as claimed, because a truncated output is
the 2,000-character prefix plus the three-character `...` marker. -/
theorem C4_sanitizer_inert (s : Str) :
    (∀ c ∈ sanitize_for_prompt s, c ≠ '\x7b' ∧ c ≠ '\x7d') ∧
    occursIn "<tool".data (sanitize_for_prompt s) = false ∧
    occursIn "</tool".data (sanitize_for_prompt s) = false ∧
    (sanitize_for_prompt s).length ≤ 2003 := by
  by_cases hs : s = []
  · subst hs
    refine ⟨by simp [sanitize_for_prompt], ?_, ?_, by simp [sanitize_for_prompt]⟩
    · rfl
    · rfl
  · have hval : sanitize_for_prompt s =
        (if 2000 < (replaceAll "</tool".data "&lt;/tool".data
            (replaceAll "<tool".data "&lt;tool".data
              (replaceAll ['\x7d'] [] (replaceAll ['\x7b'] [] s)))).length then
          (replaceAll "</tool".data "&lt;/tool".data
            (replaceAll "<tool".data "&lt;tool".data
              (replaceAll ['\x7d'] [] (replaceAll ['\x7b'] [] s)))).take 2000
            ++ "...".data
        else
          replaceAll "</tool".data "&lt;/tool".data
            (replaceAll "<tool".data "&lt;tool".data
              (replaceAll ['\x7d'] [] (replaceAll ['\x7b'] [] s)))) := by
      rw [sanitize_for_prompt, if_neg hs]
    have hrepl1 : ∀ x ∈ "&lt;tool".data, x ≠ '\x7b' ∧ x ≠ '\x7d' := by decide
    have hrepl2 : ∀ x ∈ "&lt;/tool".data, x ≠ '\x7b' ∧ x ≠ '\x7d' := by decide
    have hbrace : ∀ c ∈ replaceAll "</tool".data "&lt;/tool".data
        (replaceAll "<tool".data "&lt;tool".data
          (replaceAll ['\x7d'] [] (replaceAll ['\x7b'] [] s))),
        c ≠ '\x7b' ∧ c ≠ '\x7d' := by
      intro c hc
      rcases mem_replaceAll _ _ c _ hc with hc | hc
      · rcases mem_replaceAll _ _ c _ hc with hc | hc
        · constructor
          · intro he
            subst he
            rcases mem_replaceAll _ _ _ _ hc with hc | hc
            · exact replaceAll_erase_not_mem '\x7b' s hc
            · cases hc
          · intro he
            subst he
            exact replaceAll_erase_not_mem '\x7d' _ hc
        · exact hrepl1 c hc
      · exact hrepl2 c hc
    have e1 : "<tool".data = '<' :: "tool".data := rfl
    have e2 : "</tool".data = '<' :: "/tool".data := rfl
    have er1 : "&lt;tool".data = '&' :: "lt;tool".data := rfl
    have er2 : "&lt;/tool".data = '&' :: "lt;/tool".data := rfl
    have h3a : occursIn "<tool".data
        (replaceAll "<tool".data "&lt;tool".data
          (replaceAll ['\x7d'] [] (replaceAll ['\x7b'] [] s))) = false := by
      rw [e1, er1]
      exact replaceAll_self_not_occurs "tool".data "lt;tool".data
        (by decide) (by decide) _
    have h4a : occursIn "<tool".data
        (replaceAll "</tool".data "&lt;/tool".data
          (replaceAll "<tool".data "&lt;tool".data
            (replaceAll ['\x7d'] [] (replaceAll ['\x7b'] [] s)))) = false := by
      rw [e1, er2]
      rw [e1] at h3a
      exact replaceAll_keeps_not_occurs "tool".data "</tool".data "lt;/tool".data
        (by decide) (by decide) _ h3a
    have h4b : occursIn "</tool".data
        (replaceAll "</tool".data "&lt;/tool".data
          (replaceAll "<tool".data "&lt;tool".data
            (replaceAll ['\x7d'] [] (replaceAll ['\x7b'] [] s)))) = false := by
      rw [e2, er2]
      exact replaceAll_self_not_occurs "/tool".data "lt;/tool".data
        (by decide) (by decide) _
    rw [hval]
    exact trunc_props _ hbrace h4a h4b

theorem replaceAll_replicate (p0 : Char) (pt repl : Str) (a : Char)
    (hne : p0 ≠ a) :
    ∀ n, replaceAll (p0 :: pt) repl (List.replicate n a) = List.replicate n a := by
  intro n
  induction n with
  | zero => exact replaceAll_nil _ _
  | succ n ih =>
    rw [List.replicate_succ]
    rw [replaceAll_cons_neg]
    · rw [ih]
    · rintro ⟨-, hp⟩
      rw [isPrefixOf_cons_eq, Bool.and_eq_true, beq_iff_eq] at hp
      exact hne hp.1

/-- C4 counterexample: 2,001 plain characters sanitize to a 2,003-character
string, so the claimed 2,000-character bound fails. -/
theorem C4_cex_truncation_2003 :
    (sanitize_for_prompt (List.replicate 2001 'a')).length = 2003 ∧
    ¬ ((sanitize_for_prompt (List.replicate 2001 'a')).length ≤ 2000) := by
  have s1 : replaceAll ['\x7b'] [] (List.replicate 2001 'a') =
      List.replicate 2001 'a' := replaceAll_replicate '\x7b' [] [] 'a' (by decide) 2001
  have s2 : replaceAll ['\x7d'] [] (List.replicate 2001 'a') =
      List.replicate 2001 'a' := replaceAll_replicate '\x7d' [] [] 'a' (by decide) 2001
  have s3 : replaceAll "<tool".data "&lt;tool".data (List.replicate 2001 'a') =
      List.replicate 2001 'a' :=
    replaceAll_replicate '<' "tool".data "&lt;tool".data 'a' (by decide) 2001
  have s4 : replaceAll "</tool".data "&lt;/tool".data (List.replicate 2001 'a') =
      List.replicate 2001 'a' :=
    replaceAll_replicate '<' "/tool".data "&lt;/tool".data 'a' (by decide) 2001
  have hval : sanitize_for_prompt (List.replicate 2001 'a') =
      (List.replicate 2001 'a').take 2000 ++ "...".data := by
    rw [sanitize_for_prompt, if_neg (by simp)]
    simp only [s1, s2, s3, s4, List.length_replicate]
    rw [if_pos (by norm_num)]
  rw [hval]
  have hlen : ((List.replicate 2001 'a').take 2000 ++ "...".data : Str).length
      = 2003 := by
    rw [List.length_append, List.length_take, List.length_replicate]
    rfl
  rw [hlen]
  omega

/-! ### C1 — path confinement of the write tools -/

theorem find?_exists {α : Type} (p : α → Bool) (l : List α) (x : α)
    (hx : x ∈ l) (hp : p x = true) : ∃ y, l.find? p = some y := by
  induction l with
  | nil => cases hx
  | cons c cs ih =>
    cases hc : p c
    · simp only [List.find?, hc]
      rcases List.mem_cons.mp hx with h | h
      · subst h
        rw [hc] at hp
        cases hp
      · exact ih h
    · exact ⟨c, by simp [List.find?, hc]⟩

theorem validate_path_denied (rp : Str → Str) (home path : Str)
    (hbad : badResolved home (rp (expanduser home path))) :
    ∃ e, validate_path rp home path false = Except.error e ∧
      "Access denied".data.isPrefixOf e = true := by
  simp only [validate_path]
  by_cases hc : ((home ++ "/".data).isPrefixOf (rp (expanduser home path)) = false
      ∧ rp (expanduser home path) ≠ home)
  · rw [if_pos hc]
    refine ⟨_, rfl, isPrefixOf_append_of _ _ _ ?_⟩
    decide
  · rw [if_neg hc, if_pos trivial]
    rcases hbad with h1 | ⟨d, hd, hdp⟩
    · exfalso
      apply hc
      unfold underPath at h1
      rw [Bool.or_eq_false_iff] at h1
      refine ⟨h1.1, ?_⟩
      intro heq
      rw [heq] at h1
      simp at h1
    · obtain ⟨y, hy⟩ := find?_exists
        (fun d => (d ++ "/".data).isPrefixOf (rp (expanduser home path))
          || rp (expanduser home path) == d)
        (denied_paths home) d hd hdp
      rw [hy]
      refine ⟨_, rfl, isPrefixOf_append_of _ _ _ ?_⟩
      decide

/-- C1 (confirmed): for both write tools, when the real path of the
supplied first-line path is not under `$HOME` or lies under a denied
subtree (`~/.ssh`, `~/.gnupg`, `~/.config/autostart` — "prefix" read as
path prefix: the subtree root itself or an extension past a `/`), the tool
replies with a string beginning `Access denied` and the filesystem is
unchanged. -/
theorem C1_path_confinement (rp : Str → Str) (home : Str) (fs : FS)
    (argsW argsE : Str) (lw le1 le2 : Str × Str)
    (hw : splitOnFirst ['\n'] (stripChars argsW) = some lw)
    (hbw : badResolved home (rp (expanduser home (stripChars lw.1))))
    (he1 : splitOnFirst ['\n'] (stripChars argsE) = some le1)
    (he2 : splitOnFirst ['\n'] le1.2 = some le2)
    (hbe : badResolved home (rp (expanduser home (stripChars le1.1)))) :
    ("Access denied".data.isPrefixOf (tool_write_file rp home fs argsW).1 = true ∧
     (tool_write_file rp home fs argsW).2 = fs) ∧
    ("Access denied".data.isPrefixOf (tool_edit_file rp home fs argsE).1 = true ∧
     (tool_edit_file rp home fs argsE).2 = fs) := by
  obtain ⟨e1, hve1, hp1⟩ := validate_path_denied rp home (stripChars lw.1) hbw
  obtain ⟨e2, hve2, hp2⟩ := validate_path_denied rp home (stripChars le1.1) hbe
  constructor
  · simp only [tool_write_file, hw, hve1]
    exact ⟨hp1, trivial⟩
  · simp only [tool_edit_file, he1, he2, hve2]
    exact ⟨hp2, trivial⟩

/-- C1 witness: `write_file` with first line `/etc/passwd` (and an edit
call on the same path) is denied and the filesystem is untouched. -/
theorem C1_witness :
    ("Access denied".data.isPrefixOf
        (tool_write_file id "/home/u".data [] "/etc/passwd\nx".data).1 = true ∧
     (tool_write_file id "/home/u".data [] "/etc/passwd\nx".data).2 = []) ∧
    ("Access denied".data.isPrefixOf
        (tool_edit_file id "/home/u".data [] "/etc/passwd\na\nb".data).1 = true ∧
     (tool_edit_file id "/home/u".data [] "/etc/passwd\na\nb".data).2 = []) :=
  C1_path_confinement id "/home/u".data [] "/etc/passwd\nx".data
    "/etc/passwd\na\nb".data ("/etc/passwd".data, "x".data)
    ("/etc/passwd".data, "a\nb".data) ("a".data, "b".data)
    (by decide) (Or.inl (by decide)) (by decide) (by decide)
    (Or.inl (by decide))

/-! ### C7 — budget safety of the context assembler -/

theorem estimate_tokens_pos (text : Str) : 1 ≤ estimate_tokens text :=
  le_max_left 1 _

theorem selectRows_sum (budget : ℤ) :
    ∀ rows totalCost, (((selectRows budget totalCost rows).map rowCost).sum : ℤ)
      ≤ max 0 (budget - totalCost) := by
  intro rows
  induction rows with
  | nil =>
    intro t
    simp only [selectRows, List.map_nil, List.sum_nil, Nat.cast_zero]
    exact le_max_left _ _
  | cons r rs ih =>
    intro t
    simp only [selectRows]
    split
    · simp only [List.map_nil, List.sum_nil, Nat.cast_zero]
      exact le_max_left _ _
    · rename_i hle
      push_neg at hle
      simp only [List.map_cons, List.sum_cons]
      have hih := ih (t + rowCost r)
      push_cast at hle hih ⊢
      rw [max_eq_right (by omega : (0:ℤ) ≤ budget - (↑t + ↑(rowCost r)))] at hih
      rw [max_eq_right (by omega : (0:ℤ) ≤ budget - ↑t)]
      omega

theorem includeIfFits_bound (text : Str) (b : ℤ) :
    (((includeIfFits text b).1.map msgCost).sum : ℤ)
      + max 0 (includeIfFits text b).2 ≤ max 0 b := by
  simp only [includeIfFits]
  split
  · rename_i h
    simp only [List.map_cons, List.map_nil, List.sum_cons, List.sum_nil, msgCost]
    have h1 : 1 ≤ estimate_tokens text := estimate_tokens_pos text
    rw [max_eq_right (by omega : (0:ℤ) ≤ b - estimate_tokens text),
        max_eq_right (by omega : (0:ℤ) ≤ b)]
    push_cast
    omega
  · simp

theorem assemble_bound (m1 m2 sel : List (Str × Str × Nat)) (b0 b1 b2 : ℤ)
    (h1 : ((m1.map msgCost).sum : ℤ) + max 0 b1 ≤ max 0 b0)
    (h2 : ((m2.map msgCost).sum : ℤ) + max 0 b2 ≤ max 0 b1)
    (h3 : ((sel.map msgCost).sum : ℤ) ≤ max 0 b2) :
    (((m1 ++ m2 ++ sel).map msgCost).sum : ℤ) ≤ max 0 b0 := by
  rw [List.map_append, List.sum_append, List.map_append, List.sum_append]
  omega

theorem selected_map_cost (b : ℤ) (rows : List CtxRow) :
    ((((selectRows b 0 rows).reverse.map
        (fun r => (mapRole r.role, r.content, rowCost r))).map msgCost).sum : ℤ)
      ≤ max 0 b := by
  rw [List.map_map]
  have hcomp : (msgCost ∘ fun r => (mapRole r.role, r.content, rowCost r)) = rowCost := by
    funext r
    rfl
  rw [hcomp, List.map_reverse, List.sum_reverse]
  have := selectRows_sum b rows 0
  simpa using this

/-- C7 (confirmed): the context assembler returns a message list whose
charged token estimates sum to at most `MAX_CONTEXT_TOKENS` plus the
identity briefing's own estimate, and everything except the leading
identity message fits the budget remaining after the identity. -/
theorem C7_context_budget (identityText : Str) (summary : Option Str)
    (task : Option (Str × Str)) (recent : List CtxRow) :
    ((build_context_with_identity identityText summary task recent).map
        msgCost).sum ≤ MAX_CONTEXT_TOKENS + estimate_tokens identityText ∧
    ((((build_context_with_identity identityText summary task recent).drop 1).map
        msgCost).sum : ℤ)
      ≤ max 0 ((MAX_CONTEXT_TOKENS : ℤ) - estimate_tokens identityText) := by
  have htail : ((((build_context_with_identity identityText summary task
        recent).drop 1).map msgCost).sum : ℤ)
      ≤ max 0 ((MAX_CONTEXT_TOKENS : ℤ) - estimate_tokens identityText) := by
    rcases summary with _ | s <;> rcases task with _ | t <;>
        simp only [build_context_with_identity, List.drop_succ_cons, List.drop_zero]
    · exact assemble_bound _ _ _ _
        ((MAX_CONTEXT_TOKENS : ℤ) - estimate_tokens identityText)
        ((MAX_CONTEXT_TOKENS : ℤ) - estimate_tokens identityText)
        (by simpa using le_refl _) (by simpa using le_refl _)
        (selected_map_cost _ recent.reverse)
    · exact assemble_bound _ _ _ _
        ((MAX_CONTEXT_TOKENS : ℤ) - estimate_tokens identityText)
        ((includeIfFits ("[Current task]: ".data ++ t.1 ++ " (status: ".data
            ++ t.2 ++ ")".data)
          ((MAX_CONTEXT_TOKENS : ℤ) - estimate_tokens identityText)).2)
        (by simpa using le_refl _) (includeIfFits_bound _ _)
        (selected_map_cost _ recent.reverse)
    · exact assemble_bound _ _ _ _
        ((includeIfFits ("[Conversation summary so far]: ".data ++ s)
          ((MAX_CONTEXT_TOKENS : ℤ) - estimate_tokens identityText)).2)
        ((includeIfFits ("[Conversation summary so far]: ".data ++ s)
          ((MAX_CONTEXT_TOKENS : ℤ) - estimate_tokens identityText)).2)
        (includeIfFits_bound _ _) (by simpa using le_refl _)
        (selected_map_cost _ recent.reverse)
    · exact assemble_bound _ _ _ _
        ((includeIfFits ("[Conversation summary so far]: ".data ++ s)
          ((MAX_CONTEXT_TOKENS : ℤ) - estimate_tokens identityText)).2)
        ((includeIfFits ("[Current task]: ".data ++ t.1 ++ " (status: ".data
            ++ t.2 ++ ")".data)
          ((includeIfFits ("[Conversation summary so far]: ".data ++ s)
            ((MAX_CONTEXT_TOKENS : ℤ) - estimate_tokens identityText)).2)).2)
        (includeIfFits_bound _ _) (includeIfFits_bound _ _)
        (selected_map_cost _ recent.reverse)
  refine ⟨?_, htail⟩
  have hcons : build_context_with_identity identityText summary task recent =
      ("system".data, identityText, estimate_tokens identityText) ::
        (build_context_with_identity identityText summary task recent).drop 1 := by
    rcases summary with _ | s <;> rcases task with _ | t <;> rfl
  conv_lhs => rw [hcons]
  rw [List.map_cons, List.sum_cons]
  have hid : msgCost ("system".data, identityText, estimate_tokens identityText)
      = estimate_tokens identityText := rfl
  rw [hid]
  have hmaxle : max 0 ((MAX_CONTEXT_TOKENS : ℤ) - estimate_tokens identityText)
      ≤ (MAX_CONTEXT_TOKENS : ℤ) := by
    apply max_le
    · norm_num [MAX_CONTEXT_TOKENS]
    · have := estimate_tokens_pos identityText
      push_cast
      omega
  omega

/-- C8 witness: the invariant applied to a concrete call sequence from the
empty table. -/
theorem C8_witness :
    countActive (applyTaskOps []
      [TaskOp.upsert "a".data "active".data, TaskOp.complete,
       TaskOp.upsert "b".data "active".data]) ≤ 1 :=
  (C8_singleton_active_task []
    [TaskOp.upsert "a".data "active".data, TaskOp.complete,
     TaskOp.upsert "b".data "active".data] (by decide)).1

end Bolt
